import Mathlib

/-!
Verification of the static dead-code reachability engine
(`DeadCodeAnalyzer` in `src/analyzers/deadCodeAnalyzer.ts`) of the
code-health-optimizer repository.

The engine is shallowly embedded: TypeScript AST nodes become the
inductive `Node`, the TypeScript checker's symbol resolution becomes the
`sym` fields (a resolved fully-qualified name, or `none` when resolution
fails), the instance field `this.callGraph : Map<string, Set<string>>`
becomes an insertion-ordered association list `CallGraph`, and the
three sequential passes of `analyze` become `buildCallGraphFiles`,
`classifyFiles` and `analyze`.
-/

namespace DeadCode

/-- Membership test of a pattern inside a character list, used to embed
JavaScript `String.prototype.includes`: `leadEq p l` holds when `p` is an
initial segment of `l`. -/
def leadEq : List Char → List Char → Bool
  | [], _ => true
  | _ :: _, [] => false
  | a :: p, b :: l => a = b && leadEq p l

/-- Predicate `subAt pat l` holds when `pat` occurs contiguously somewhere in `l`. -/
def subAt : List Char → List Char → Bool
  | pat, [] => pat.isEmpty
  | pat, c :: rest => leadEq pat (c :: rest) || subAt pat rest

/-- Embeds `s.includes(pat)` on JavaScript strings. -/
def strContains (s pat : String) : Bool :=
  subAt pat.toList s.toList

/-- Embeds `path.relative(repoPath, fileName)` in the common case where the
file lives under the repository root; no claim depends on this computation. -/
def pathRelative (repo file : String) : String :=
  if leadEq (repo ++ "/").toList file.toList then file.drop (repo.length + 1)
  else file

/-- Modifier kinds carried by AST nodes; the engine only ever inspects
whether `ts.SyntaxKind.ExportKeyword` is among them. -/
inductive ModKind where
  | exportKw
  | asyncKw
  | staticKw
  | otherKw
deriving DecidableEq

/-- Embeds `!!modifiers?.some((m) => m.kind === ts.SyntaxKind.ExportKeyword)`
from `DeadCodeAnalyzer.isExported`; an absent modifier array is the empty
list. -/
def isExportedMods (mods : List ModKind) : Bool :=
  mods.any (fun m => m = ModKind.exportKw)

/-- TypeScript AST nodes, restricted to the shapes the engine's two
visitors distinguish.

`funcDecl` covers `ts.isFunctionDeclaration(node) || ts.isMethodDeclaration(node)`
(both visitors treat the two cases identically): `name` is
`node.name?.getText()`, `sym` is the result of
`checker.getSymbolAtLocation(node.name)` composed with
`checker.getFullyQualifiedName` (`none` when the symbol is unresolvable),
`decorators` models the optional `decorators` property array, and
`startLine`/`endLine` are the zero-indexed lines of `node.getStart()` and
`node.getEnd()`.

`callExpr` covers `ts.isCallExpression(node)`: `calleeSym` is the resolved
fully-qualified name of `node.expression`'s symbol, `none` when the checker
cannot resolve it.

`other` covers every remaining node kind (classes, statements, ...); it
keeps its modifier list so that export markers on ancestor containers are
representable. -/
inductive Node where
  | funcDecl (name : Option String) (sym : Option String) (mods : List ModKind)
      (decorators : Option (List String)) (startLine endLine : Nat)
      (children : List Node)
  | callExpr (calleeSym : Option String) (children : List Node)
  | other (mods : List ModKind) (children : List Node)

/-- A parsed source file of the program: `fileName`, the
`isDeclarationFile` flag both visitors test, and its top-level nodes. -/
structure SourceFile where
  fileName : String
  isDeclarationFile : Bool
  children : List Node

/-- The engine's call graph `Map<string, Set<string>>`: an
insertion-ordered association list from callee name to the
insertion-ordered, duplicate-free list of caller names. -/
abbrev CallGraph := List (String × List String)

/-- Embeds `this.callGraph.get(k)`. -/
def graphGet : CallGraph → String → Option (List String)
  | [], _ => none
  | (k, v) :: rest, c => if k = c then some v else graphGet rest c

/-- Embeds `Set.prototype.add`: append the element unless already present. -/
def setAdd (s : List String) (x : String) : List String :=
  if x ∈ s then s else s ++ [x]

/-- Embeds the edge insertion of `buildCallGraph`:
`if (!this.callGraph.has(calleeName)) this.callGraph.set(calleeName, new Set());
this.callGraph.get(calleeName)!.add(callerName)`. -/
def graphAddEdge (g : CallGraph) (callee caller : String) : CallGraph :=
  match g with
  | [] => [(callee, [caller])]
  | (k, v) :: rest =>
      if k = callee then (k, setAdd v caller) :: rest
      else (k, v) :: graphAddEdge rest callee caller

/-- A dead-code finding (`DeadCodeFinding`); `confidence` is exact
rational arithmetic since the engine only ever writes the constant 0.9. -/
structure Finding where
  filePath : String
  functionName : String
  lineStart : Nat
  lineEnd : Nat
  confidence : ℚ
  reason : String
deriving DecidableEq

/-- The mutable state of a `DeadCodeAnalyzer` instance: the persistent
`callGraph` field, initialised to the empty map by the constructor. -/
structure AnalyzerState where
  callGraph : CallGraph
deriving DecidableEq

mutual
/-- Embeds the `visit` closure of `buildCallGraph` at one node. `ctx` is
the value `getContainingFunction` would return for nodes in this subtree:
entering a `funcDecl` with a present `name` replaces it by that node's
symbol-resolution result (possibly `none` when resolution fails, exactly as
`getSymbolAtLocation` may return `undefined`); an anonymous `funcDecl`
leaves the walk to continue upward. A call expression inserts an edge only
when `callerSymbol && calleeSymbol` both resolved. -/
def buildNode (ctx : Option String) (g : CallGraph) : Node → CallGraph
  | Node.funcDecl name sym _ _ _ _ ch =>
      buildNodes (match name with | some _ => sym | none => ctx) g ch
  | Node.callExpr calleeSym ch =>
      buildNodes ctx
        (match ctx, calleeSym with
         | some caller, some callee => graphAddEdge g callee caller
         | _, _ => g) ch
  | Node.other _ ch => buildNodes ctx g ch

/-- Embeds `ts.forEachChild(node, visit)` for the graph-building pass. -/
def buildNodes (ctx : Option String) (g : CallGraph) : List Node → CallGraph
  | [] => g
  | n :: ns => buildNodes ctx (buildNode ctx g n) ns
end

/-- Embeds the outer loop of `buildCallGraph` over
`this.program.getSourceFiles()`, skipping declaration files, starting from
the instance's current graph. -/
def buildCallGraphFiles (g : CallGraph) : List SourceFile → CallGraph
  | [] => g
  | f :: fs =>
      buildCallGraphFiles
        (if f.isDeclarationFile then g else buildNodes none g f.children) fs

/-- The reason string of every finding the engine emits. -/
def deadReason : String :=
  "Function has no internal references and is not exported"

/-- Embeds `sourceFile.fileName.includes(".test.") ||
sourceFile.fileName.includes(".spec.")`. -/
def isTestFileName (fname : String) : Bool :=
  strContains fname ".test." || strContains fname ".spec."

/-- Embeds the decorator presence test:
`'decorators' in node && Array.isArray(node.decorators) && node.decorators.length > 0`. -/
def hasDecoratorsB (decorators : Option (List String)) : Bool :=
  match decorators with
  | some ds => !ds.isEmpty
  | none => false

mutual
/-- Embeds the `visit` closure of the classification pass (step 2 of
`analyze`) at one node, threading the instance's `callGraph` field, which
the closure consults via `this.callGraph.get(fullName)`. A `funcDecl`
whose symbol is unresolved hits the early `if (!symbol) return;`, which
skips `ts.forEachChild` for that subtree. -/
def classifyNode (repo fname : String) (g : CallGraph) :
    Node → CallGraph × List Finding
  | Node.funcDecl name sym mods decorators startLine endLine ch =>
      match name with
      | none => (g, [])
      | some nm =>
          match sym with
          | none => (g, [])
          | some q =>
              let refs := graphGet g q
              let here :=
                if (match refs with | none => true | some l => l.isEmpty) then
                  if !isExportedMods mods && !isTestFileName fname &&
                      !hasDecoratorsB decorators then
                    [⟨pathRelative repo fname,
                      if nm = "" then "anonymous" else nm,
                      startLine + 1, endLine + 1, 9/10, deadReason⟩]
                  else []
                else []
              let rest := classifyNodes repo fname g ch
              (rest.1, here ++ rest.2)
  | Node.callExpr _ ch => classifyNodes repo fname g ch
  | Node.other _ ch => classifyNodes repo fname g ch

/-- Embeds `ts.forEachChild(node, visit)` for the classification pass. -/
def classifyNodes (repo fname : String) (g : CallGraph) :
    List Node → CallGraph × List Finding
  | [] => (g, [])
  | n :: ns =>
      let first := classifyNode repo fname g n
      let rest := classifyNodes repo fname first.1 ns
      (rest.1, first.2 ++ rest.2)
end

/-- Embeds the classification loop over `this.program.getSourceFiles()`,
skipping declaration files and accumulating findings in file order. -/
def classifyFiles (repo : String) (g : CallGraph) :
    List SourceFile → CallGraph × List Finding
  | [] => (g, [])
  | f :: fs =>
      let first :=
        if f.isDeclarationFile then (g, [])
        else classifyNodes repo f.fileName g f.children
      let rest := classifyFiles repo first.1 fs
      (rest.1, first.2 ++ rest.2)

/-- Embeds `DeadCodeAnalyzer.analyze`: given the repository path, the
instance state and the discovered file list, return the updated instance
state and the findings. `files.length === 0` returns `[]` before any pass
runs; otherwise the call graph is built (into the persistent instance
field) and the classification pass reads it. -/
def analyze (repo : String) (st : AnalyzerState) (files : List SourceFile) :
    AnalyzerState × List Finding :=
  if files.isEmpty then (st, [])
  else
    let g := buildCallGraphFiles st.callGraph files
    let r := classifyFiles repo g files
    (⟨r.1⟩, r.2)

/-- The attributes of one declaration as the classification pass sees
them: name text, fully-qualified name, own modifiers, decorator array and
zero-indexed source extent. -/
structure DeclInfo where
  nameText : String
  qname : String
  mods : List ModKind
  decorators : Option (List String)
  startLine : Nat
  endLine : Nat
deriving DecidableEq

mutual
/-- The declarations the engine finds in one subtree, in the
classification pass's visit order: resolved function-like declarations,
with the subtrees of unresolved ones skipped exactly as the early
`return` in the classification visitor skips them. -/
def declsNode : Node → List DeclInfo
  | Node.funcDecl name sym mods decorators startLine endLine ch =>
      match name with
      | none => []
      | some nm =>
          match sym with
          | none => []
          | some q => ⟨nm, q, mods, decorators, startLine, endLine⟩ :: declsNodes ch
  | Node.callExpr _ ch => declsNodes ch
  | Node.other _ ch => declsNodes ch

/-- Map of `declsNode` over a child list. -/
def declsNodes : List Node → List DeclInfo
  | [] => []
  | n :: ns => declsNode n ++ declsNodes ns
end

/-- All declarations the engine finds, paired with the name of the file
holding them, in visit order across the non-declaration input files. -/
def specDeclarations : List SourceFile → List (String × DeclInfo)
  | [] => []
  | f :: fs =>
      (if f.isDeclarationFile then []
       else (declsNodes f.children).map (fun d => (f.fileName, d))) ++
        specDeclarations fs

/-- Root predicate following the spec: exported, in a test file, or
annotated. -/
def specIsRoot (fname : String) (d : DeclInfo) : Bool :=
  isExportedMods d.mods || isTestFileName fname || hasDecoratorsB d.decorators

/-- No incoming call-graph edge: the key is absent or its caller set is
empty. -/
def specUnreferenced (g : CallGraph) (q : String) : Bool :=
  match graphGet g q with
  | none => true
  | some l => l.isEmpty

/-- The finding the engine builds for a declaration it reports dead. -/
def mkFinding (repo fname : String) (d : DeclInfo) : Finding :=
  ⟨pathRelative repo fname,
   if d.nameText = "" then "anonymous" else d.nameText,
   d.startLine + 1, d.endLine + 1, 9/10, deadReason⟩

/-- The spec-side classification of one declaration: emit a finding iff
the declaration is not a root and has no incoming edge. -/
def specEmit (g : CallGraph) (repo fname : String) (d : DeclInfo) :
    Option Finding :=
  if !specIsRoot fname d && specUnreferenced g d.qname then
    some (mkFinding repo fname d)
  else none

theorem filterMap_cons_toList {α β : Type} (f : α → Option β) (a : α)
    (l : List α) :
    List.filterMap f (a :: l) = (f a).toList ++ List.filterMap f l := by
  cases h : f a <;> simp [List.filterMap_cons, h]

theorem emit_head_eq (g : CallGraph) (repo fname nm q : String)
    (mods : List ModKind) (decorators : Option (List String)) (sL eL : Nat) :
    (if (match graphGet g q with | none => true | some l => l.isEmpty) then
        if !isExportedMods mods && !isTestFileName fname &&
            !hasDecoratorsB decorators then
          [(⟨pathRelative repo fname, if nm = "" then "anonymous" else nm,
            sL + 1, eL + 1, 9/10, deadReason⟩ : Finding)]
        else []
      else []) =
      (specEmit g repo fname ⟨nm, q, mods, decorators, sL, eL⟩).toList := by
  simp only [specEmit, specIsRoot, specUnreferenced, mkFinding]
  cases hU : (match graphGet g q with | none => true | some l => l.isEmpty) <;>
    cases hE : isExportedMods mods <;> cases hT : isTestFileName fname <;>
      cases hD : hasDecoratorsB decorators <;> simp [hU, hE, hT, hD]

mutual
theorem classifyNode_eq : ∀ (repo fname : String) (g : CallGraph) (n : Node),
    classifyNode repo fname g n =
      (g, (declsNode n).filterMap (specEmit g repo fname))
  | repo, fname, g, Node.funcDecl name sym mods decorators sL eL ch => by
      cases name with
      | none => simp [classifyNode, declsNode]
      | some nm =>
          cases sym with
          | none => simp [classifyNode, declsNode]
          | some q =>
              have hch := classifyNodes_eq repo fname g ch
              simp only [classifyNode, declsNode, hch,
                filterMap_cons_toList, ← emit_head_eq]
  | repo, fname, g, Node.callExpr c ch => by
      have hch := classifyNodes_eq repo fname g ch
      simp [classifyNode, declsNode, hch]
  | repo, fname, g, Node.other m ch => by
      have hch := classifyNodes_eq repo fname g ch
      simp [classifyNode, declsNode, hch]

theorem classifyNodes_eq : ∀ (repo fname : String) (g : CallGraph)
    (ns : List Node),
    classifyNodes repo fname g ns =
      (g, (declsNodes ns).filterMap (specEmit g repo fname))
  | repo, fname, g, [] => by simp [classifyNodes, declsNodes]
  | repo, fname, g, n :: ns => by
      have hn := classifyNode_eq repo fname g n
      have hns := classifyNodes_eq repo fname g ns
      simp [classifyNodes, declsNodes, hn, hns, List.filterMap_append]
end

theorem classifyFiles_eq (repo : String) (g : CallGraph)
    (files : List SourceFile) :
    classifyFiles repo g files =
      (g, (specDeclarations files).filterMap
        (fun p => specEmit g repo p.1 p.2)) := by
  induction files with
  | nil => simp [classifyFiles, specDeclarations]
  | cons f fs ih =>
      by_cases hf : f.isDeclarationFile
      · simp [classifyFiles, specDeclarations, hf, ih, List.filterMap_append]
      · simp only [classifyFiles, specDeclarations, hf, if_neg, ite_false,
          Bool.false_eq_true, not_false_eq_true, ih, classifyNodes_eq,
          List.filterMap_append, List.filterMap_map]
        rfl

theorem analyze_findings_law (repo : String) (st : AnalyzerState)
    (files : List SourceFile) :
    (analyze repo st files).2 =
      (specDeclarations files).filterMap
        (fun p =>
          specEmit (buildCallGraphFiles st.callGraph files) repo p.1 p.2) := by
  cases files with
  | nil => simp [analyze, specDeclarations]
  | cons f fs => simp [analyze, classifyFiles_eq]

mutual
/-- Claim-side predicate for export visibility as the spec words it:
the subtree holds a declaration with qualified name `q` that carries an
explicit export marker on itself or on an ancestor container (`anc`
records whether some ancestor already carried one). -/
def declExportSelfOrAnc (anc : Bool) (q : String) : Node → Bool
  | Node.funcDecl name sym mods _ _ _ ch =>
      (match name, sym with
       | some _, some q' => decide (q' = q) && (anc || isExportedMods mods)
       | _, _ => false) ||
        declsExportSelfOrAnc (anc || isExportedMods mods) q ch
  | Node.callExpr _ ch => declsExportSelfOrAnc anc q ch
  | Node.other mods ch => declsExportSelfOrAnc (anc || isExportedMods mods) q ch

/-- Disjunction of `declExportSelfOrAnc` over a child list. -/
def declsExportSelfOrAnc (anc : Bool) (q : String) : List Node → Bool
  | [] => false
  | n :: ns => declExportSelfOrAnc anc q n || declsExportSelfOrAnc anc q ns
end

/-- A file whose only call to the non-exported function `f` sits at module
scope. -/
def exC2File : SourceFile :=
  ⟨"a.ts", false,
   [Node.funcDecl (some "f") (some "f") [] none 0 1 [],
    Node.callExpr (some "f") []]⟩

/-- A file holding an exported container whose method `m`, itself carrying
no modifiers, is never called. -/
def exC3File : SourceFile :=
  ⟨"c.ts", false,
   [Node.other [ModKind.exportKw]
     [Node.funcDecl (some "m") (some "C.m") [] none 2 3 []]]⟩

/-- C1: a declaration found by the engine is reported as a dead-code
finding iff it is not a root (not exported, not in a test file, not
annotated) and the call graph has no incoming edge for its qualified name
(absent key or empty caller set); the findings are exactly those
declarations' findings, in visit order. -/
theorem dead_iff_nonRoot_and_unreferenced (repo : String)
    (st : AnalyzerState) (files : List SourceFile) :
    (analyze repo st files).2 =
      (specDeclarations files).filterMap
        (fun p =>
          if !specIsRoot p.1 p.2 &&
              specUnreferenced (buildCallGraphFiles st.callGraph files)
                p.2.qname then
            some (mkFinding repo p.1 p.2)
          else none) :=
  analyze_findings_law repo st files

/-- C2 counterexample: in `exC2File` the only call to `f` lies at module
scope, yet the builder records no edge at all (the graph stays empty, so
no synthetic module-scope caller exists) and `f` is reported dead rather
than kept out of the dead set. -/
theorem moduleScope_call_cex :
    buildCallGraphFiles [] [exC2File] = [] ∧
      (analyze "" ⟨[]⟩ [exC2File]).2 =
        [⟨"a.ts", "f", 1, 2, 9/10, deadReason⟩] :=
  ⟨rfl, rfl⟩

/-- C2 amended: a call expression with no lexically enclosing named
function-like declaration contributes no edge whatsoever to the call
graph — the caller symbol is undefined and the edge is dropped, so a
module-scope call does not keep its callee out of the dead set. -/
theorem moduleScope_call_adds_no_edge (g : CallGraph)
    (calleeSym : Option String) (ch : List Node) :
    buildNode none g (Node.callExpr calleeSym ch) = buildNodes none g ch := by
  cases calleeSym <;> rfl

/-- C3 counterexample: the method `m` of `exC3File` carries an explicit
export marker on its ancestor container, yet the engine emits a dead-code
finding for it. -/
theorem ancestor_export_cex :
    declsExportSelfOrAnc false "C.m" exC3File.children = true ∧
      (analyze "" ⟨[]⟩ [exC3File]).2 =
        [⟨"c.ts", "m", 3, 4, 9/10, deadReason⟩] :=
  ⟨rfl, rfl⟩

/-- C3 amended: only the declaration's own modifier list is consulted; a
declaration whose own modifiers carry the export keyword is never the
source of any emitted finding (export markers on ancestor containers give
no exemption). -/
theorem own_export_never_reported (repo : String) (st : AnalyzerState)
    (files : List SourceFile) :
    (analyze repo st files).2 =
      (specDeclarations files).filterMap
        (fun p =>
          if isExportedMods p.2.mods then none
          else
            specEmit (buildCallGraphFiles st.callGraph files) repo
              p.1 p.2) := by
  rw [analyze_findings_law]
  refine List.filterMap_congr (fun p _ => ?_)
  by_cases h : isExportedMods p.2.mods
  · simp [h, specEmit, specIsRoot]
  · simp [h, specEmit]

/-- C4: a declaration carrying one or more metadata annotations
(decorators) is never the source of any emitted finding, even with zero
incoming edges: filtering annotated declarations out beforehand leaves
the engine's output unchanged. -/
theorem annotated_never_reported (repo : String) (st : AnalyzerState)
    (files : List SourceFile) :
    (analyze repo st files).2 =
      (specDeclarations files).filterMap
        (fun p =>
          if hasDecoratorsB p.2.decorators then none
          else
            specEmit (buildCallGraphFiles st.callGraph files) repo
              p.1 p.2) := by
  rw [analyze_findings_law]
  refine List.filterMap_congr (fun p _ => ?_)
  by_cases h : hasDecoratorsB p.2.decorators
  · simp [h, specEmit, specIsRoot]
  · simp [h, specEmit]

/-- C6: an empty input file set is not an error; the engine returns the
empty finding sequence and leaves the instance state untouched. -/
theorem empty_input_empty_findings (repo : String) (st : AnalyzerState) :
    analyze repo st [] = (st, []) :=
  rfl

/-- C9: the classification pass never mutates the call graph — for any
graph the build pass produced, the mapping is identical before and after
classifying a single declaration node and after the whole pass. -/
theorem classifier_preserves_graph (repo fname : String) (g : CallGraph) :
    (∀ n : Node, (classifyNode repo fname g n).1 = g) ∧
      (∀ files : List SourceFile, (classifyFiles repo g files).1 = g) :=
  ⟨fun n => by simp [classifyNode_eq], fun files => by simp [classifyFiles_eq]⟩

theorem setAdd_mem_iff (s : List String) (r x : String) :
    x ∈ setAdd s r ↔ x ∈ s ∨ x = r := by
  unfold setAdd
  by_cases h : r ∈ s
  · simp only [h, if_true]
    exact ⟨Or.inl, fun hx => hx.elim id (fun he => he ▸ h)⟩
  · simp [h]

theorem setAdd_of_mem {s : List String} {r : String} (h : r ∈ s) :
    setAdd s r = s := by
  simp [setAdd, h]

theorem graphGet_addEdge_self (g : CallGraph) (c r : String) :
    graphGet (graphAddEdge g c r) c =
      some (setAdd ((graphGet g c).getD []) r) := by
  induction g with
  | nil => simp [graphAddEdge, graphGet, setAdd]
  | cons kv rest ih =>
      obtain ⟨k, v⟩ := kv
      by_cases hk : k = c
      · simp [graphAddEdge, graphGet, hk]
      · simp [graphAddEdge, graphGet, hk, ih]

theorem graphGet_addEdge_other (g : CallGraph) {c c' : String} (r : String)
    (h : c' ≠ c) : graphGet (graphAddEdge g c' r) c = graphGet g c := by
  induction g with
  | nil => simp [graphAddEdge, graphGet, h]
  | cons kv rest ih =>
      obtain ⟨k, v⟩ := kv
      by_cases hk : k = c'
      · subst hk
        simp [graphAddEdge, graphGet, h]
      · by_cases hc : k = c <;>
          simp [graphAddEdge, graphGet, hk, hc, ih, Ne.symm h]

/-- Edge presence: `caller` is in the recorded caller set of `callee`. -/
def edgeMem (g : CallGraph) (callee caller : String) : Prop :=
  caller ∈ (graphGet g callee).getD []

theorem edgeMem_addEdge_self (g : CallGraph) (c r : String) :
    edgeMem (graphAddEdge g c r) c r := by
  unfold edgeMem
  rw [graphGet_addEdge_self]
  exact (setAdd_mem_iff _ r r).mpr (Or.inr rfl)

theorem edgeMem_addEdge_mono {g : CallGraph} {c r : String} (c' r' : String)
    (h : edgeMem g c r) : edgeMem (graphAddEdge g c' r') c r := by
  unfold edgeMem at h ⊢
  by_cases hc : c' = c
  · subst hc
    rw [graphGet_addEdge_self]
    exact (setAdd_mem_iff _ r' r).mpr (Or.inl h)
  · rwa [graphGet_addEdge_other g r' hc]

theorem addEdge_of_edgeMem {g : CallGraph} {c r : String}
    (h : edgeMem g c r) : graphAddEdge g c r = g := by
  induction g with
  | nil => simp [edgeMem, graphGet] at h
  | cons kv rest ih =>
      obtain ⟨k, v⟩ := kv
      by_cases hk : k = c
      · subst hk
        simp only [edgeMem, graphGet, if_pos, Option.getD_some,
          eq_self_iff_true, if_true] at h
        simp [graphAddEdge, setAdd_of_mem h]
      · simp only [edgeMem, graphGet, if_neg hk] at h
        simp [graphAddEdge, hk, ih h]

theorem addEdge_idem (g : CallGraph) (c r : String) :
    graphAddEdge (graphAddEdge g c r) c r = graphAddEdge g c r :=
  addEdge_of_edgeMem (edgeMem_addEdge_self g c r)

theorem addEdge_iterate (c r : String) (n : Nat) :
    ∀ g : CallGraph,
      (fun h => graphAddEdge h c r)^[n + 1] g = graphAddEdge g c r := by
  induction n with
  | zero => intro g; simp
  | succ m ih =>
      intro g
      rw [Function.iterate_succ_apply, ih]
      exact addEdge_idem g c r

/-- C7: the call graph keeps set semantics per callee key: repeating the
same insertion any positive number of times equals doing it once, and the
insertion unions the caller into the existing caller set (old members are
kept, the new caller is now a member). -/
theorem callGraph_set_semantics (g : CallGraph) (c r : String) (n : Nat) :
    (fun h => graphAddEdge h c r)^[n + 1] g = graphAddEdge g c r ∧
      ∀ x, x ∈ (graphGet (graphAddEdge g c r) c).getD [] ↔
        x ∈ (graphGet g c).getD [] ∨ x = r :=
  ⟨addEdge_iterate c r n g,
   fun x => by rw [graphGet_addEdge_self]; simpa using setAdd_mem_iff _ r x⟩

/-- C5: every emitted finding carries the fixed confidence 0.9, the fixed
rationale string, and a 1-indexed line span obtained from a found
declaration's zero-indexed full extent by adding one to each end. -/
theorem finding_constants (repo : String) (st : AnalyzerState)
    (files : List SourceFile) (fnd : Finding)
    (h : fnd ∈ (analyze repo st files).2) :
    fnd.confidence = 9/10 ∧
      fnd.reason = "Function has no internal references and is not exported" ∧
      ∃ p, p ∈ specDeclarations files ∧
        fnd.lineStart = p.2.startLine + 1 ∧
        fnd.lineEnd = p.2.endLine + 1 := by
  rw [analyze_findings_law] at h
  obtain ⟨p, hp, he⟩ := List.mem_filterMap.mp h
  simp only [specEmit] at he
  split at he
  · obtain rfl := Option.some_inj.mp he
    exact ⟨rfl, rfl, p, hp, rfl, rfl⟩
  · exact absurd he (by simp)

/-- Input for the C5 witness: one never-called, non-exported function. -/
def exC5File : SourceFile :=
  ⟨"w.ts", false,
   [Node.funcDecl (some "lonely") (some "lonely") [] none 3 7 []]⟩

/-- The finding the engine emits for `exC5File`. -/
def exC5Finding : Finding := ⟨"w.ts", "lonely", 4, 8, 9/10, deadReason⟩

theorem finding_constants_witness :
    exC5Finding.confidence = 9/10 ∧
      exC5Finding.reason =
        "Function has no internal references and is not exported" ∧
      ∃ p, p ∈ specDeclarations [exC5File] ∧
        exC5Finding.lineStart = p.2.startLine + 1 ∧
        exC5Finding.lineEnd = p.2.endLine + 1 :=
  finding_constants "" ⟨[]⟩ [exC5File] exC5Finding
    (by
      have hr : (analyze "" ⟨[]⟩ [exC5File]).2 = [exC5Finding] := rfl
      rw [hr]
      exact List.mem_singleton_self _)

mutual
/-- The (callee, caller) pairs the graph-building visitor inserts for one
subtree, in insertion order. -/
def edgesNode (ctx : Option String) : Node → List (String × String)
  | Node.funcDecl name sym _ _ _ _ ch =>
      edgesNodes (match name with | some _ => sym | none => ctx) ch
  | Node.callExpr calleeSym ch =>
      (match ctx, calleeSym with
       | some caller, some callee => [(callee, caller)]
       | _, _ => []) ++ edgesNodes ctx ch
  | Node.other _ ch => edgesNodes ctx ch

/-- Concatenation of `edgesNode` over a child list. -/
def edgesNodes (ctx : Option String) : List Node → List (String × String)
  | [] => []
  | n :: ns => edgesNode ctx n ++ edgesNodes ctx ns
end

/-- All edges the graph-building pass inserts, across the
non-declaration input files, in insertion order. -/
def edgesFiles : List SourceFile → List (String × String)
  | [] => []
  | f :: fs =>
      (if f.isDeclarationFile then [] else edgesNodes none f.children) ++
        edgesFiles fs

/-- Insert a list of edges left to right. -/
def insertEdges (g : CallGraph) (es : List (String × String)) : CallGraph :=
  es.foldl (fun h e => graphAddEdge h e.1 e.2) g

theorem insertEdges_append (g : CallGraph) (es₁ es₂ : List (String × String)) :
    insertEdges g (es₁ ++ es₂) = insertEdges (insertEdges g es₁) es₂ :=
  List.foldl_append _ _ es₁ es₂

mutual
theorem buildNode_eq_insertEdges : ∀ (ctx : Option String) (g : CallGraph)
    (n : Node), buildNode ctx g n = insertEdges g (edgesNode ctx n)
  | ctx, g, Node.funcDecl name sym mods decorators sL eL ch => by
      simpa [buildNode, edgesNode] using
        buildNodes_eq_insertEdges
          (match name with | some _ => sym | none => ctx) g ch
  | ctx, g, Node.callExpr calleeSym ch => by
      cases ctx with
      | none =>
          simpa [buildNode, edgesNode] using
            buildNodes_eq_insertEdges none g ch
      | some caller =>
          cases calleeSym with
          | none =>
              simpa [buildNode, edgesNode] using
                buildNodes_eq_insertEdges (some caller) g ch
          | some callee =>
              have hch :=
                buildNodes_eq_insertEdges (some caller)
                  (graphAddEdge g callee caller) ch
              simp [buildNode, edgesNode, insertEdges_append, hch, insertEdges]
  | ctx, g, Node.other mods ch => by
      simpa [buildNode, edgesNode] using buildNodes_eq_insertEdges ctx g ch

theorem buildNodes_eq_insertEdges : ∀ (ctx : Option String) (g : CallGraph)
    (ns : List Node), buildNodes ctx g ns = insertEdges g (edgesNodes ctx ns)
  | ctx, g, [] => rfl
  | ctx, g, n :: ns => by
      have hn := buildNode_eq_insertEdges ctx g n
      have hns := buildNodes_eq_insertEdges ctx (buildNode ctx g n) ns
      rw [hn] at hns
      simp [buildNodes, edgesNodes, hn, hns, insertEdges_append]
end

theorem buildFiles_eq_insertEdges (g : CallGraph) (files : List SourceFile) :
    buildCallGraphFiles g files = insertEdges g (edgesFiles files) := by
  induction files generalizing g with
  | nil => rfl
  | cons f fs ih =>
      by_cases hf : f.isDeclarationFile <;>
        simp [buildCallGraphFiles, edgesFiles, hf, ih,
          buildNodes_eq_insertEdges, insertEdges_append]

theorem edgeMem_insertEdges_mono {g : CallGraph} {c r : String}
    (es : List (String × String)) (h : edgeMem g c r) :
    edgeMem (insertEdges g es) c r := by
  induction es generalizing g with
  | nil => exact h
  | cons e es ih => exact ih (edgeMem_addEdge_mono e.1 e.2 h)

theorem edgeMem_insertEdges_of_mem {es : List (String × String)}
    {e : String × String} (g : CallGraph) (h : e ∈ es) :
    edgeMem (insertEdges g es) e.1 e.2 := by
  induction es generalizing g with
  | nil => cases h
  | cons e' es ih =>
      cases h with
      | head =>
          exact edgeMem_insertEdges_mono es (edgeMem_addEdge_self g e.1 e.2)
      | tail _ h' => exact ih _ h'

theorem insertEdges_of_all_mem {g : CallGraph} {es : List (String × String)}
    (h : ∀ e ∈ es, edgeMem g e.1 e.2) : insertEdges g es = g := by
  induction es with
  | nil => rfl
  | cons e es ih =>
      have hg : graphAddEdge g e.1 e.2 = g :=
        addEdge_of_edgeMem (h e (List.mem_cons_self e es))
      have : insertEdges g (e :: es) = insertEdges (graphAddEdge g e.1 e.2) es :=
        rfl
      rw [this, hg]
      exact ih (fun e' he' => h e' (List.mem_cons_of_mem e he'))

theorem buildFiles_idem (g : CallGraph) (files : List SourceFile) :
    buildCallGraphFiles (buildCallGraphFiles g files) files =
      buildCallGraphFiles g files := by
  rw [buildFiles_eq_insertEdges, buildFiles_eq_insertEdges]
  exact insertEdges_of_all_mem
    (fun e he => edgeMem_insertEdges_of_mem g he)

theorem analyze_cons_eq (repo : String) (st : AnalyzerState)
    (f : SourceFile) (fs : List SourceFile) :
    analyze repo st (f :: fs) =
      (⟨buildCallGraphFiles st.callGraph (f :: fs)⟩,
        (specDeclarations (f :: fs)).filterMap
          (fun p =>
            specEmit (buildCallGraphFiles st.callGraph (f :: fs)) repo
              p.1 p.2)) := by
  simp [analyze, classifyFiles_eq]

/-- C8: running `analyze` a second time over the unchanged file set, on
the instance state the first run left behind, returns exactly the first
run's result: the same state and the identical finding list (same
function names, line spans and confidences). -/
theorem analyze_idempotent (repo : String) (st : AnalyzerState)
    (files : List SourceFile) :
    analyze repo (analyze repo st files).1 files = analyze repo st files := by
  cases files with
  | nil => rfl
  | cons f fs =>
      rw [analyze_cons_eq repo st f fs]
      rw [analyze_cons_eq repo ⟨buildCallGraphFiles st.callGraph (f :: fs)⟩ f fs]
      simp [buildFiles_idem]

/-- C10: a named function whose body holds a call to itself gets a
self-edge recorded as an incoming call-graph edge, so it is classified as
referenced and the engine reports nothing for it, whatever its modifiers,
decorators, file name or line span. -/
theorem selfRecursive_not_reported (repo fname nm q : String)
    (mods : List ModKind) (decorators : Option (List String)) (sL eL : Nat) :
    analyze repo ⟨[]⟩
        [⟨fname, false,
          [Node.funcDecl (some nm) (some q) mods decorators sL eL
            [Node.callExpr (some q) []]]⟩] =
      (⟨[(q, [q])]⟩, []) := by
  simp [analyze, buildCallGraphFiles, buildNodes, buildNode, graphAddEdge,
    classifyFiles, classifyNodes, classifyNode, graphGet, setAdd]

end DeadCode
